import Mathlib

/-!
# Verification of the Cantor-space search library (`impossible.py`)

The program implements exhaustive search over Cantor space (infinite boolean
sequences): `for_some`, `for_every`, `find`, `search` and `equal`, for
predicates that are *continuous* (each terminating evaluation inspects only a
finite prefix of its input).

Embedding choices:
* A `Cantor` sequence, represented in the source as a wrapper around a pure
  index-to-bool function (`Cantor.__getitem__` just applies the stored
  function), is embedded as the function `Nat → Bool` itself.
* `Cantor.__radd__` (prepending a finite list of booleans) is `prepend`
  below for the public interface of non-negative indices, and `raddInt` /
  `pyGet` for the full Python semantics including negative indices.
* The mutual general recursion of `for_some` / `find` is not structurally
  terminating; it terminates only because of continuity.  It is embedded with
  an explicit fuel parameter (`findF n`, `forSomeF n`): each recursive call
  consumes one unit of fuel, and the fuel-0 value is an arbitrary default
  that is never reached when the fuel exceeds the predicate's continuity
  bound (proved below: the result is fuel-independent from that point on).
-/

/-- An infinite boolean sequence: the pure index-to-bit function stored in the
source's `Cantor` class (`__getitem__` applies it). -/
abbrev Cantor : Type := Nat → Bool

/-- A predicate over Cantor space, as accepted by the quantifiers. -/
abbrev Pred : Type := Cantor → Bool

/-- `Cantor.__radd__` on the public interface of non-negative indices:
`(bools + c)[i]` is `bools[i]` when `i < len(bools)` and
`c[i - len(bools)]` otherwise. -/
def prepend (bools : List Bool) (c : Cantor) : Cantor :=
  fun index =>
    if h : index < bools.length then bools.get ⟨index, h⟩
    else c (index - bools.length)

/-- Fuel-indexed embedding of `find`:
`find(pred)` tests `for_some(lambda c: pred([False] + c))`; if it holds the
result is `[False] + Cantor(lambda i: find(lambda c: pred([False] + c))[i])`,
otherwise `[True] + Cantor(lambda i: find(lambda c: pred([True] + c))[i])`.
The condition inlines `for_some`'s body (`pred` applied to the lazy sequence
`Cantor(lambda i: find(pred)[i])`).  Fuel 0 returns a default never used at
sufficient fuel. -/
def findF : Nat → Pred → Cantor
  | 0, _ => fun _ => false
  | n + 1, pred =>
    if (fun c => pred (prepend [false] c))
        (fun i => findF n (fun c => pred (prepend [false] c)) i) then
      prepend [false] (fun i => findF n (fun c => pred (prepend [false] c)) i)
    else
      prepend [true] (fun i => findF n (fun c => pred (prepend [true] c)) i)

/-- Fuel-indexed embedding of `for_some`: build the lazily self-referential
sequence `cantor = Cantor(lambda i: find(pred)[i])` and return `pred(cantor)`. -/
def forSomeF (n : Nat) (pred : Pred) : Bool :=
  pred (fun i => findF n pred i)

/-- Fuel-indexed embedding of `for_every`:
`not (for_some (lambda cantor: not pred(cantor)))`. -/
def forEveryF (n : Nat) (pred : Pred) : Bool :=
  !(forSomeF n (fun cantor => !(pred cantor)))

/-- Fuel-indexed embedding of `search`: `find(pred)` if `for_some(pred)`
holds, else the explicit no-witness signal `None`. -/
def searchF (n : Nat) (pred : Pred) : Option Cantor :=
  if forSomeF n pred then some (findF n pred) else none

/-- Fuel-indexed embedding of `equal`:
`for_every (lambda cantor: pred1(cantor) == pred2(cantor))`. -/
def equalF (n : Nat) (pred1 pred2 : Pred) : Bool :=
  forEveryF n (fun cantor => pred1 cantor == pred2 cantor)

/-- `pred` is continuous with modulus `k`: its value depends only on the
first `k` bits of the input sequence. -/
def modulus (k : Nat) (pred : Pred) : Prop :=
  ∀ s t : Cantor, (∀ i, i < k → s i = t i) → pred s = pred t

/-- Python list indexing `l[i]` for an arbitrary integer index: negative
indices count from the end, out-of-range access raises (`none`). -/
def pyGet (l : List Bool) (i : Int) : Option Bool :=
  let j : Int := if i < 0 then i + l.length else i
  if 0 ≤ j then l.get? j.toNat else none

/-- `Cantor.__radd__` over arbitrary integer indices, faithful to the Python
code: `if index < len(bools): return bools[index]` (Python list indexing,
so negative indices reach into the prefix from its end), else delegate to the
continuation at `index - len(bools)`. -/
def raddInt (bools : List Bool) (c : Int → Option Bool) : Int → Option Bool :=
  fun index =>
    if index < (bools.length : Int) then pyGet bools index
    else c (index - bools.length)

-- Basic unfolding lemmas

theorem findF_succ (n : Nat) (pred : Pred) :
    findF (n + 1) pred =
      if forSomeF n (fun c => pred (prepend [false] c)) then
        prepend [false] (findF n (fun c => pred (prepend [false] c)))
      else
        prepend [true] (findF n (fun c => pred (prepend [true] c))) := rfl

theorem forSomeF_eq (n : Nat) (pred : Pred) :
    forSomeF n pred = pred (findF n pred) := rfl

theorem prepend_one_zero (b : Bool) (c : Cantor) : prepend [b] c 0 = b := rfl

theorem prepend_one_succ (b : Bool) (c : Cantor) (i : Nat) :
    prepend [b] c (i + 1) = c i := rfl

/-- Reattaching the head of a sequence to its tail gives back the sequence. -/
theorem prepend_head_tail (s : Cantor) :
    prepend [s 0] (fun i => s (i + 1)) = s := by
  funext i
  cases i with
  | zero => rfl
  | succ j => rfl

-- Continuity (modulus) lemmas

theorem modulus_mono {k k' : Nat} {pred : Pred} (hmod : modulus k pred)
    (hk : k ≤ k') : modulus k' pred := by
  intro s t h
  exact hmod s t (fun i hi => h i (Nat.lt_of_lt_of_le hi hk))

/-- Fixing one bit lowers the modulus of continuity by one. -/
theorem modulus_prepend {k : Nat} {pred : Pred} (b : Bool)
    (hmod : modulus (k + 1) pred) :
    modulus k (fun c => pred (prepend [b] c)) := by
  intro s t h
  apply hmod
  intro i hi
  cases i with
  | zero => rfl
  | succ j =>
    rw [prepend_one_succ, prepend_one_succ]
    exact h j (Nat.lt_of_succ_lt_succ hi)

theorem modulus_prepend_of {k : Nat} {pred : Pred} (b : Bool)
    (hmod : modulus k pred) :
    modulus k (fun c => pred (prepend [b] c)) :=
  modulus_prepend b (modulus_mono hmod (Nat.le_succ k))

theorem modulus_not {k : Nat} {pred : Pred} (hmod : modulus k pred) :
    modulus k (fun c => !(pred c)) := by
  intro s t h
  show (!(pred s)) = !(pred t)
  rw [hmod s t h]

-- Core correctness: with sufficient fuel, `find` produces a genuine witness
-- for every satisfiable continuous predicate.

theorem find_correct :
    ∀ (k : Nat) (pred : Pred), modulus k pred → (∃ s : Cantor, pred s = true) →
      ∀ n : Nat, k ≤ n → pred (findF n pred) = true := by
  intro k
  induction k with
  | zero =>
    intro pred hmod hsat n _
    obtain ⟨s, hs⟩ := hsat
    have h0 : pred (findF n pred) = pred s :=
      hmod (findF n pred) s (fun i hi => absurd hi (Nat.not_lt_zero i))
    rw [h0, hs]
  | succ k ih =>
    intro pred hmod hsat n hn
    obtain ⟨s, hs⟩ := hsat
    match n, hn with
    | m + 1, hn =>
      have hm : k ≤ m := Nat.le_of_succ_le_succ hn
      have hqf : modulus k (fun c => pred (prepend [false] c)) :=
        modulus_prepend false hmod
      have hqt : modulus k (fun c => pred (prepend [true] c)) :=
        modulus_prepend true hmod
      rw [findF_succ]
      cases hcond : forSomeF m (fun c => pred (prepend [false] c)) with
      | true =>
        rw [if_pos rfl]
        rw [forSomeF_eq] at hcond
        exact hcond
      | false =>
        rw [if_neg (by simp)]
        rw [forSomeF_eq] at hcond
        -- the true-branch predicate must be satisfiable: the witness s
        -- cannot start with false, else the false branch would have fired
        have hst : (fun c => pred (prepend [true] c))
            (fun i => s (i + 1)) = true := by
          have hht := prepend_head_tail s
          cases hb : s 0 with
          | false =>
            exfalso
            rw [hb] at hht
            have hsatf : ∃ c : Cantor,
                (fun c => pred (prepend [false] c)) c = true := by
              refine ⟨fun i => s (i + 1), ?_⟩
              show pred (prepend [false] (fun i => s (i + 1))) = true
              rw [hht]
              exact hs
            have hw : pred (prepend [false]
                (findF m fun c => pred (prepend [false] c))) = true :=
              ih (fun c => pred (prepend [false] c)) hqf hsatf m hm
            exact Bool.noConfusion (hcond.symm.trans hw)
          | true =>
            show pred (prepend [true] (fun i => s (i + 1))) = true
            rw [hb] at hht
            rw [hht]
            exact hs
        exact ih (fun c => pred (prepend [true] c)) hqt
          ⟨fun i => s (i + 1), hst⟩ m hm

/-- `for_some` is an exact satisfiability test for continuous predicates. -/
theorem forSome_iff {k : Nat} {pred : Pred} (hmod : modulus k pred)
    {n : Nat} (hn : k ≤ n) :
    forSomeF n pred = true ↔ ∃ s : Cantor, pred s = true := by
  constructor
  · intro h
    exact ⟨findF n pred, h⟩
  · intro hsat
    rw [forSomeF_eq]
    exact find_correct k pred hmod hsat n hn

/-- Once the fuel reaches the modulus, `for_some`'s value is stable. -/
theorem forSome_stable {k : Nat} {pred : Pred} (hmod : modulus k pred)
    {n m : Nat} (hn : k ≤ n) (hm : k ≤ m) :
    forSomeF n pred = forSomeF m pred := by
  by_cases hsat : ∃ s : Cantor, pred s = true
  · rw [(forSome_iff hmod hn).mpr hsat, (forSome_iff hmod hm).mpr hsat]
  · have h1 : forSomeF n pred = false := by
      cases h : forSomeF n pred with
      | false => rfl
      | true => exact absurd ((forSome_iff hmod hn).mp h) hsat
    have h2 : forSomeF m pred = false := by
      cases h : forSomeF m pred with
      | false => rfl
      | true => exact absurd ((forSome_iff hmod hm).mp h) hsat
    rw [h1, h2]

/-- Once the fuel exceeds the modulus plus the queried index, each bit of
`find`'s output is stable. -/
theorem findF_stable :
    ∀ (i k : Nat) (pred : Pred), modulus k pred →
      ∀ n m : Nat, k + i < n → k + i < m → findF n pred i = findF m pred i := by
  intro i
  induction i with
  | zero =>
    intro k pred hmod n m hn hm
    match n, hn, m, hm with
    | n' + 1, hn, m' + 1, hm =>
      have hn' : k ≤ n' := Nat.le_of_succ_le_succ hn
      have hm' : k ≤ m' := Nat.le_of_succ_le_succ hm
      have hqf : modulus k (fun c => pred (prepend [false] c)) :=
        modulus_prepend_of false hmod
      have hc : forSomeF n' (fun c => pred (prepend [false] c)) =
          forSomeF m' (fun c => pred (prepend [false] c)) :=
        forSome_stable hqf hn' hm'
      rw [findF_succ, findF_succ, hc]
      cases forSomeF m' (fun c => pred (prepend [false] c)) with
      | true => rw [if_pos rfl, if_pos rfl]; rfl
      | false => rw [if_neg (by simp), if_neg (by simp)]; rfl
  | succ j ihj =>
    intro k pred hmod n m hn hm
    match n, hn, m, hm with
    | n' + 1, hn, m' + 1, hm =>
      have hn' : k + j < n' := by omega
      have hm' : k + j < m' := by omega
      have hqf : modulus k (fun c => pred (prepend [false] c)) :=
        modulus_prepend_of false hmod
      have hqt : modulus k (fun c => pred (prepend [true] c)) :=
        modulus_prepend_of true hmod
      have hc : forSomeF n' (fun c => pred (prepend [false] c)) =
          forSomeF m' (fun c => pred (prepend [false] c)) :=
        forSome_stable hqf (by omega) (by omega)
      rw [findF_succ, findF_succ, hc]
      cases forSomeF m' (fun c => pred (prepend [false] c)) with
      | true =>
        rw [if_pos rfl, if_pos rfl, prepend_one_succ, prepend_one_succ]
        exact ihj k (fun c => pred (prepend [false] c)) hqf n' m' hn' hm'
      | false =>
        rw [if_neg (by simp), if_neg (by simp),
          prepend_one_succ, prepend_one_succ]
        exact ihj k (fun c => pred (prepend [true] c)) hqt n' m' hn' hm'

/-- `equal(p, always-false)` computes exactly the negation of `for_some(p)`:
the inner predicate `lambda c: not (p(c) == False)` is pointwise `p`. -/
theorem equalF_false_pred (n : Nat) (p : Pred) :
    equalF n p (fun _ => false) = !(forSomeF n p) := by
  have h : (fun cantor =>
      !((fun cantor => p cantor == (fun _ : Cantor => false) cantor) cantor)) = p := by
    funext c
    show (!(p c == false)) = p c
    cases p c <;> rfl
  show (!(forSomeF n (fun cantor =>
      !((fun cantor => p cantor == (fun _ : Cantor => false) cantor) cantor)))) =
    !(forSomeF n p)
  rw [h]

-- Claim theorems

/-- C1: for every continuous predicate `pred`, `for_some(pred)` is true iff
some infinite boolean sequence satisfies `pred`; and it is computed by
evaluating `pred` on the lazily self-referential sequence whose value at
every index `i` is `find(pred)[i]`. -/
theorem C1_for_some_correct (k n : Nat) (pred : Pred) (hmod : modulus k pred)
    (hn : k ≤ n) :
    (forSomeF n pred = true ↔ ∃ s : Cantor, pred s = true) ∧
    forSomeF n pred = pred (fun i => findF n pred i) :=
  ⟨forSome_iff hmod hn, rfl⟩

/-- C1 witness: the claim instantiated at the predicate testing bit 0, with
modulus 1 and fuel 1. -/
theorem C1_for_some_correct_witness :
    (forSomeF 1 (fun s : Cantor => s 0) = true ↔
      ∃ s : Cantor, (fun s : Cantor => s 0) s = true) ∧
    forSomeF 1 (fun s : Cantor => s 0) =
      (fun s : Cantor => s 0) (fun i => findF 1 (fun s : Cantor => s 0) i) :=
  C1_for_some_correct 1 1 (fun s : Cantor => s 0)
    (fun s t h => h 0 Nat.one_pos) (Nat.le_refl 1)

/-- C2: for every continuous predicate `p`, if `for_some(p)` is true then
`p(find(p))` is true, and if it is false then `p(find(p))` is false;
moreover `for_some(p)` being true is equivalent to `p` not being `equal` to
the always-false predicate (both equivalent to satisfiability of `p`). -/
theorem C2_satisfiability_agreement (k n : Nat) (p : Pred) (hmod : modulus k p)
    (hn : k ≤ n) :
    (forSomeF n p = true → p (findF n p) = true) ∧
    (forSomeF n p = false → p (findF n p) = false) ∧
    (equalF n p (fun _ => false) = false ↔ forSomeF n p = true) ∧
    (equalF n p (fun _ => false) = false ↔ ∃ s : Cantor, p s = true) := by
  refine ⟨fun h => h, fun h => h, ?_, ?_⟩
  · rw [equalF_false_pred]
    simp only [Bool.not_eq_false']
  · rw [equalF_false_pred]
    simp only [Bool.not_eq_false']
    exact forSome_iff hmod hn

/-- C2 witness: instantiated at the predicate testing bit 0, with modulus 1
and fuel 1. -/
theorem C2_satisfiability_agreement_witness :
    (forSomeF 1 (fun s : Cantor => s 0) = true →
      (fun s : Cantor => s 0) (findF 1 (fun s : Cantor => s 0)) = true) ∧
    (forSomeF 1 (fun s : Cantor => s 0) = false →
      (fun s : Cantor => s 0) (findF 1 (fun s : Cantor => s 0)) = false) ∧
    (equalF 1 (fun s : Cantor => s 0) (fun _ => false) = false ↔
      forSomeF 1 (fun s : Cantor => s 0) = true) ∧
    (equalF 1 (fun s : Cantor => s 0) (fun _ => false) = false ↔
      ∃ s : Cantor, (fun s : Cantor => s 0) s = true) :=
  C2_satisfiability_agreement 1 1 (fun s : Cantor => s 0)
    (fun s t h => h 0 Nat.one_pos) (Nat.le_refl 1)

/-- C3: termination, expressed for the fuel embedding as stabilization: for a
predicate of modulus `k`, each bit `find(pred)[i]` needs only boundedly many
nested calls (fuel beyond `k + i` does not change it), and `for_some(pred)`
needs fuel at most `k`. -/
theorem C3_termination (k : Nat) (pred : Pred) (hmod : modulus k pred) :
    (∀ i n m : Nat, k + i < n → k + i < m → findF n pred i = findF m pred i) ∧
    (∀ n m : Nat, k ≤ n → k ≤ m → forSomeF n pred = forSomeF m pred) :=
  ⟨fun i n m hn hm => findF_stable i k pred hmod n m hn hm,
   fun n m hn hm => forSome_stable hmod hn hm⟩

/-- C3 witness: instantiated at the predicate testing bit 0 (modulus 1),
checking bit 0 at fuels 2 and 3 and `for_some` at fuels 1 and 2. -/
theorem C3_termination_witness :
    findF 2 (fun s : Cantor => s 0) 0 = findF 3 (fun s : Cantor => s 0) 0 ∧
    forSomeF 1 (fun s : Cantor => s 0) = forSomeF 2 (fun s : Cantor => s 0) :=
  ⟨(C3_termination 1 (fun s : Cantor => s 0)
      (fun s t h => h 0 Nat.one_pos)).1 0 2 3 (by decide) (by decide),
   (C3_termination 1 (fun s : Cantor => s 0)
      (fun s t h => h 0 Nat.one_pos)).2 1 2 (by decide) (by decide)⟩

/-- C4 counterexample: for the always-false predicate no sequence satisfies
either completion branch and `for_some` is false, yet `find`'s output is
`true` at index 0, not `false` as the claim states: the `else` arm of the
source prepends `[True]`. -/
theorem C4_counterexample :
    forSomeF 1 (fun _ : Cantor => false) = false ∧
    (¬ ∃ s : Cantor, (fun _ : Cantor => false) s = true) ∧
    findF 1 (fun _ : Cantor => false) 0 = true := by
  refine ⟨rfl, ?_, rfl⟩
  rintro ⟨s, hs⟩
  exact Bool.noConfusion hs

/-- C4 (amended): when neither branch is satisfiable (`for_some(pred)` is
false for every completion), the recursion falls through to the TRUE branch
by default, so `find(pred)` has the value `true` at index 0. -/
theorem C4_default_branch (n : Nat) (pred : Pred) (hn : 0 < n)
    (hunsat : ∀ s : Cantor, pred s = false) :
    findF n pred 0 = true := by
  match n, hn with
  | m + 1, _ =>
    rw [findF_succ]
    have hc : forSomeF m (fun c => pred (prepend [false] c)) = false := by
      rw [forSomeF_eq]
      exact hunsat _
    rw [hc, if_neg (by simp)]
    rfl

/-- C4 witness: the amended claim instantiated at the always-false predicate
with fuel 1. -/
theorem C4_default_branch_witness :
    findF 1 (fun _ : Cantor => false) 0 = true :=
  C4_default_branch 1 (fun _ : Cantor => false) Nat.one_pos (fun _ => rfl)

/-- C5: for every continuous predicate `pred`, `for_every(pred)` is true iff
every sequence satisfies `pred`, and it is computed exactly as
`not (for_some (lambda s: not pred(s)))`. -/
theorem C5_for_every_correct (k n : Nat) (pred : Pred) (hmod : modulus k pred)
    (hn : k ≤ n) :
    (forEveryF n pred = true ↔ ∀ s : Cantor, pred s = true) ∧
    forEveryF n pred = !(forSomeF n (fun s => !(pred s))) := by
  refine ⟨?_, rfl⟩
  have hnotp : modulus k (fun cantor => !(pred cantor)) := modulus_not hmod
  unfold forEveryF
  constructor
  · intro h s
    cases hps : pred s with
    | true => rfl
    | false =>
      exfalso
      have hsat : ∃ c : Cantor, (fun cantor => !(pred cantor)) c = true :=
        ⟨s, by show (!(pred s)) = true; rw [hps]; rfl⟩
      have hx := (forSome_iff hnotp hn).mpr hsat
      rw [hx] at h
      exact Bool.noConfusion h
  · intro h
    cases hx : forSomeF n (fun cantor => !(pred cantor)) with
    | false => rfl
    | true =>
      exfalso
      obtain ⟨s, hs⟩ := (forSome_iff hnotp hn).mp hx
      have hs' : (!(pred s)) = true := hs
      rw [h s] at hs'
      exact Bool.noConfusion hs'

/-- C5 witness: instantiated at the predicate testing bit 0, with modulus 1
and fuel 1. -/
theorem C5_for_every_correct_witness :
    (forEveryF 1 (fun s : Cantor => s 0) = true ↔
      ∀ s : Cantor, (fun s : Cantor => s 0) s = true) ∧
    forEveryF 1 (fun s : Cantor => s 0) =
      !(forSomeF 1 (fun s => !((fun s : Cantor => s 0) s))) :=
  C5_for_every_correct 1 1 (fun s : Cantor => s 0)
    (fun s t h => h 0 Nat.one_pos) (Nat.le_refl 1)

/-- C6: `equal(p, p)` is true for every predicate `p`, also when the second
argument is a referentially distinct wrapper calling `p`; and `equal` is
computed as `for_every (lambda s: p1(s) == p2(s))`. -/
theorem C6_equal_refl (n : Nat) (p : Pred) :
    equalF n p p = true ∧
    equalF n p (fun s => p s) = true ∧
    ∀ q : Pred, equalF n p q = forEveryF n (fun s => p s == q s) := by
  have hself : (fun c : Cantor => p c == p c) = (fun _ : Cantor => true) := by
    funext c
    cases p c <;> rfl
  refine ⟨?_, ?_, fun q => rfl⟩
  · show forEveryF n (fun c => p c == p c) = true
    rw [hself]
    rfl
  · show forEveryF n (fun c => p c == p c) = true
    rw [hself]
    rfl

/-- C7: indexing a prepended sequence returns the prefix entry below the
prefix length and defers to the continuation, shifted, from the prefix
length on. -/
theorem C7_prepend_index (bools : List Bool) (c : Cantor) (i : Nat) :
    (∀ h : i < bools.length, prepend bools c i = bools.get ⟨i, h⟩) ∧
    (bools.length ≤ i → prepend bools c i = c (i - bools.length)) := by
  constructor
  · intro h
    simp [prepend, h]
  · intro h
    have h' : ¬ i < bools.length := Nat.not_lt.mpr h
    simp [prepend, h']

/-- C7 witness: a two-element prefix queried inside and past the prefix. -/
theorem C7_prepend_index_witness :
    prepend [true, false] (fun _ => false) 0 = true ∧
    prepend [true, false] (fun _ => true) 5 = true :=
  ⟨(C7_prepend_index [true, false] (fun _ => false) 0).1 (by decide),
   (C7_prepend_index [true, false] (fun _ => true) 5).2 (by decide)⟩

/-- C8: `search(pred)` returns `find(pred)` exactly when `for_some(pred)`
holds (equivalently, for continuous `pred`, when `pred` is satisfiable), and
the explicit no-witness signal `None` otherwise. -/
theorem C8_search_spec (k n : Nat) (pred : Pred) (hmod : modulus k pred)
    (hn : k ≤ n) :
    ((∃ s : Cantor, pred s = true) → searchF n pred = some (findF n pred)) ∧
    ((¬ ∃ s : Cantor, pred s = true) → searchF n pred = none) ∧
    (forSomeF n pred = true → searchF n pred = some (findF n pred)) ∧
    (forSomeF n pred = false → searchF n pred = none) := by
  have h1 : forSomeF n pred = true → searchF n pred = some (findF n pred) := by
    intro h
    unfold searchF
    rw [h, if_pos rfl]
  have h2 : forSomeF n pred = false → searchF n pred = none := by
    intro h
    unfold searchF
    rw [h, if_neg (by simp)]
  refine ⟨?_, ?_, h1, h2⟩
  · intro hsat
    exact h1 ((forSome_iff hmod hn).mpr hsat)
  · intro hunsat
    apply h2
    cases hx : forSomeF n pred with
    | false => rfl
    | true => exact absurd ((forSome_iff hmod hn).mp hx) hunsat

/-- C8 witness: the bit-0 predicate is satisfiable, so `search` returns
`find`'s sequence. -/
theorem C8_search_spec_witness :
    searchF 1 (fun s : Cantor => s 0) =
      some (findF 1 (fun s : Cantor => s 0)) :=
  (C8_search_spec 1 1 (fun s : Cantor => s 0)
    (fun s t h => h 0 Nat.one_pos) (Nat.le_refl 1)).1 ⟨fun _ => true, rfl⟩

/-- C9: prepending the empty prefix is a pointwise identity. -/
theorem C9_prepend_nil (c : Cantor) (i : Nat) : prepend [] c i = c i := by
  simp [prepend]

/-- C10: for a non-empty prefix, querying the prepended sequence at a
negative index `i` with `-len(prefix) ≤ i ≤ -1` does not raise: the guard
`index < len(bools)` holds, and Python negative list indexing returns the
prefix entry `prefix[len(prefix) + i]`. -/
theorem C10_radd_negative (bools : List Bool) (c : Int → Option Bool) (i : Int)
    (hne : bools ≠ []) (h1 : -(bools.length : Int) ≤ i) (h2 : i ≤ -1) :
    raddInt bools c i =
      some (bools.getD ((bools.length : Int) + i).toNat false) := by
  have hlen : 0 < bools.length := List.length_pos.mpr hne
  have hi0 : i < 0 := by omega
  have hcond : i < (bools.length : Int) := by omega
  have hidx : ((bools.length : Int) + i).toNat < bools.length := by omega
  simp only [raddInt, pyGet]
  rw [if_pos hcond, if_pos hi0, if_pos (show (0 : Int) ≤ i + bools.length by omega)]
  rw [show i + (bools.length : Int) = (bools.length : Int) + i from by omega]
  rw [List.get?_eq_getElem?, List.getElem?_eq_getElem hidx,
    List.getD_eq_getElem bools false hidx]

/-- C10 witness: prefix `[true, false]`, index `-1`, a continuation that
would raise on any query: the result is the last prefix entry. -/
theorem C10_radd_negative_witness :
    raddInt [true, false] (fun _ => none) (-1) = some false := by
  rw [C10_radd_negative [true, false] (fun _ => none) (-1)
    (by decide) (by decide) (by decide)]
  decide
